import Mathlib

/-!
Verification development for the Spatial-pattern dashboard (src/app.py).

The program's core is `normalize_country` (src/app.py lines 15-94): a pure
resolver from free-text country names to ISO 3166-1 codes, built from a
blank/NaN guard, Unicode NFKD cleaning, a hard-coded override table, an exact
registry lookup (the third-party pycountry database), and a fuzzy fallback
(fuzzywuzzy `fuzz.ratio` with an 80-score acceptance threshold).  Around it,
the main flow (lines 155-275) checks for a `country` column, optionally
aggregates panel data per raw country string, resolves the country column,
drops unresolved rows and reports unresolved names.

The embedding below translates those functions into Lean.  Third-party
libraries are modelled as follows:

* Python string primitives (`strip`, `lower`, `split`, `join`, single-char
  `replace`) are re-implemented on `List Char`, restricted to the whitespace
  and letter code points that occur in this development.
* `unicodedata.normalize("NFKD", -)` is modelled by `nfkdChar`, the
  restriction of Unicode NFKD to the code points occurring here
  (the precomposed letters u-diaeresis, o-circumflex, c-cedilla decompose;
  NBSP is a compatibility equivalent of space; other characters are inert).
* The pycountry registry is modelled by the list `countries`: the subset of
  the ISO 3166-1 database (pycountry >= 22.x field values) consisting of
  every country targeted by the program's override table.
  `pycountry.countries.lookup` is case-insensitive over a record's fields;
  it is modelled by `lookupLower`, which receives the lower-cased query
  (fields not consulted by any claim input, such as `official_name` and the
  numeric code, are omitted).
* `fuzz.ratio` is modelled by `fuzzRatio`: with the python-Levenshtein
  backend, `ratio(a, b) = round(100 * (|a|+|b| - dist)/(|a|+|b|))` where
  `dist` is the edit distance with substitution weight 2, equivalently
  `round(200 * lcs(a, b) / (|a|+|b|))` with round-half-to-even, and 0 when
  either string is empty (fuzzywuzzy's `check_empty_string` decorator).
-/

set_option maxRecDepth 8192
set_option maxHeartbeats 2000000

/-- Python `str.isspace`-relevant whitespace for `strip`/`split`, restricted
to the code points occurring in this development: space, TAB, LF, VT, FF,
CR, NBSP. -/
def isPySpace (c : Char) : Bool :=
  c.toNat = 32 || c.toNat = 9 || c.toNat = 10 || c.toNat = 11 ||
    c.toNat = 12 || c.toNat = 13 || c.toNat = 160

/-- Python `str.lower`, restricted to ASCII plus the precomposed letters
appearing in the data (U+00DC, U+00D4, U+00C7). -/
def pyLower (c : Char) : Char :=
  if 65 ≤ c.toNat ∧ c.toNat ≤ 90 then Char.ofNat (c.toNat + 32)
  else if c.toNat = 0xdc then Char.ofNat 0xfc
  else if c.toNat = 0xd4 then Char.ofNat 0xf4
  else if c.toNat = 0xc7 then Char.ofNat 0xe7
  else c

/-- Python `str.upper`, restricted like `pyLower` (used only to build the
letter-case variants of a string). -/
def pyUpper (c : Char) : Char :=
  if 97 ≤ c.toNat ∧ c.toNat ≤ 122 then Char.ofNat (c.toNat - 32)
  else if c.toNat = 0xfc then Char.ofNat 0xdc
  else if c.toNat = 0xf4 then Char.ofNat 0xd4
  else if c.toNat = 0xe7 then Char.ofNat 0xc7
  else c

/-- Unicode NFKD (`unicodedata.normalize("NFKD", -)`, src/app.py line 24)
restricted to the code points occurring in this development: the precomposed
letters decompose into base letter plus combining mark (U+0308, U+0302,
U+0327), NBSP (U+00A0) is compatibility-equivalent to a space, and every
other occurring character is inert. -/
def nfkdChar (c : Char) : List Char :=
  if c.toNat = 0xfc then [Char.ofNat 117, Char.ofNat 0x308]
  else if c.toNat = 0xdc then [Char.ofNat 85, Char.ofNat 0x308]
  else if c.toNat = 0xf4 then [Char.ofNat 111, Char.ofNat 0x302]
  else if c.toNat = 0xd4 then [Char.ofNat 79, Char.ofNat 0x302]
  else if c.toNat = 0xe7 then [Char.ofNat 99, Char.ofNat 0x327]
  else if c.toNat = 0xc7 then [Char.ofNat 67, Char.ofNat 0x327]
  else if c.toNat = 0xa0 then [Char.ofNat 32]
  else [c]

/-- NFKD of a character list. -/
def nfkdStr : List Char → List Char
  | [] => []
  | c :: cs => nfkdChar c ++ nfkdStr cs

/-- Python `str.strip()`: drop leading and trailing whitespace. -/
def pyStrip (l : List Char) : List Char :=
  ((l.dropWhile isPySpace).reverse.dropWhile isPySpace).reverse

/-- The chained single-character replaces of src/app.py line 25: delete
U+200B and U+FEFF, replace U+00A0 by a space. -/
def removeZw (l : List Char) : List Char :=
  l.filterMap fun c =>
    if c.toNat = 0x200b ∨ c.toNat = 0xfeff then none
    else if c.toNat = 0xa0 then some (Char.ofNat 32) else some c

/-- Python `str.split()` with no argument: split on whitespace runs,
dropping empty words. -/
def pySplitWs (l : List Char) : List (List Char) :=
  let p := l.foldr
    (fun c (acc : List (List Char) × List Char) =>
      if isPySpace c then (if acc.2.isEmpty then acc.1 else acc.2 :: acc.1, [])
      else (acc.1, c :: acc.2))
    ([], [])
  if p.2.isEmpty then p.1 else p.2 :: p.1

/-- Python `" ".join(words)`. -/
def joinWords : List (List Char) → List Char
  | [] => []
  | [w] => w
  | w :: rest => w ++ Char.ofNat 32 :: joinWords rest

/-- The cleaning stage of `normalize_country` (src/app.py lines 23-26):
NFKD, strip, remove zero-width space and BOM, NBSP to space, collapse
whitespace runs. -/
def cleanStr (s : String) : String :=
  String.mk (joinWords (pySplitWs (removeZw (pyStrip (nfkdStr s.data)))))

/-- Python `str.lower()` over a whole string. -/
def pyLowerStr (s : String) : String :=
  String.mk (s.data.map pyLower)

/-- `clean_lower` of src/app.py line 57: the cleaned input, lower-cased. -/
def cleanLower (s : String) : String :=
  pyLowerStr (cleanStr s)

/-- One inner row of the longest-common-subsequence dynamic program:
cell(i, j) for j = 1.. given the previous row (cells (i-1, j), (i-1, j-1))
and the cell to the left. -/
def lcsRowAux (a : Char) : List Char → List Nat → Nat → Nat → List Nat
  | [], _, _, _ => []
  | b :: bs, prev, diag, left =>
    let up := prev.headD 0
    let cur := if a = b then diag + 1 else max left up
    cur :: lcsRowAux a bs prev.tail up cur

/-- Length of a longest common subsequence, by row-at-a-time dynamic
programming. -/
def lcs (a b : List Char) : Nat :=
  (a.foldl (fun prev x => 0 :: lcsRowAux x b prev.tail (prev.headD 0) 0)
    (List.replicate (b.length + 1) 0)).getLastD 0

/-- Python `int(round(num / den))` for nonnegative arguments:
round half to even. -/
def intRound (num den : Nat) : Nat :=
  let q := num / den
  let r := num % den
  if den < 2 * r then q + 1
  else if 2 * r < den then q
  else if q % 2 = 0 then q else q + 1

/-- Model of `fuzz.ratio` (see the header comment): 0 when either side is
empty, else `round(200 * lcs / (|a| + |b|))`. -/
def fuzzRatio (a b : List Char) : Nat :=
  if a.isEmpty ∨ b.isEmpty then 0
  else intRound (200 * lcs a b) (a.length + b.length)

/-- One record of the modelled pycountry ISO 3166-1 registry.  Only the
fields the program reads are kept: `alpha_2`, `alpha_3`, `name` and the
optional `common_name` (src/app.py lines 60-61, 67-68, 76-88). -/
structure Country where
  alpha_2 : String
  alpha_3 : String
  name : String
  common_name : Option String
deriving DecidableEq

/-- Modelled subset of the third-party pycountry registry (pycountry >= 22.x
field values, iterated in database order, i.e. by alpha-2 code): every
country targeted by the program's override table. -/
def countries : List Country := [
  ⟨"AE", "ARE", "United Arab Emirates", none⟩,
  ⟨"BO", "BOL", "Bolivia, Plurinational State of", some "Bolivia"⟩,
  ⟨"CD", "COD", "Congo, The Democratic Republic of the", none⟩,
  ⟨"CG", "COG", "Congo", none⟩,
  ⟨"CI", "CIV", "Côte d'Ivoire", none⟩,
  ⟨"CN", "CHN", "China", none⟩,
  ⟨"CZ", "CZE", "Czechia", none⟩,
  ⟨"GB", "GBR", "United Kingdom", none⟩,
  ⟨"IR", "IRN", "Iran, Islamic Republic of", some "Iran"⟩,
  ⟨"KP", "PRK", "Korea, Democratic People's Republic of", some "North Korea"⟩,
  ⟨"KR", "KOR", "Korea, Republic of", some "South Korea"⟩,
  ⟨"LA", "LAO", "Lao People's Democratic Republic", some "Laos"⟩,
  ⟨"MD", "MDA", "Moldova, Republic of", some "Moldova"⟩,
  ⟨"MK", "MKD", "North Macedonia", none⟩,
  ⟨"MM", "MMR", "Myanmar", none⟩,
  ⟨"NL", "NLD", "Netherlands", none⟩,
  ⟨"PS", "PSE", "Palestine, State of", none⟩,
  ⟨"RU", "RUS", "Russian Federation", none⟩,
  ⟨"SY", "SYR", "Syrian Arab Republic", some "Syria"⟩,
  ⟨"SZ", "SWZ", "Eswatini", none⟩,
  ⟨"TR", "TUR", "Türkiye", none⟩,
  ⟨"TZ", "TZA", "Tanzania, United Republic of", some "Tanzania"⟩,
  ⟨"US", "USA", "United States", none⟩,
  ⟨"VE", "VEN", "Venezuela, Bolivarian Republic of", some "Venezuela"⟩,
  ⟨"VN", "VNM", "Viet Nam", some "Vietnam"⟩]

/-- The hard-override table of `normalize_country` (src/app.py lines 29-55),
in source order.  The keys are literal NFC strings as written in the source
file (in particular the second Turkey key holds precomposed U+00FC). -/
def overrides : List (String × String) := [
  ("turkey", "TUR"), ("türkiye", "TUR"), ("turkiye", "TUR"),
  ("usa", "USA"), ("us", "USA"), ("united states", "USA"),
  ("uk", "GBR"), ("united kingdom", "GBR"), ("britain", "GBR"),
  ("south korea", "KOR"), ("korea", "KOR"), ("rok", "KOR"),
  ("north korea", "PRK"), ("dprk", "PRK"),
  ("russia", "RUS"), ("russian federation", "RUS"), ("ussr", "RUS"),
  ("china", "CHN"), ("prc", "CHN"),
  ("vietnam", "VNM"), ("viet nam", "VNM"),
  ("czech republic", "CZE"), ("czechia", "CZE"),
  ("uae", "ARE"), ("united arab emirates", "ARE"),
  ("drc", "COD"), ("dr congo", "COD"),
  ("democratic republic of the congo", "COD"),
  ("congo", "COG"), ("republic of the congo", "COG"),
  ("ivory coast", "CIV"), ("cote d'ivoire", "CIV"),
  ("myanmar", "MMR"), ("burma", "MMR"),
  ("palestine", "PSE"), ("palestinian territory", "PSE"),
  ("tanzania", "TZA"), ("united republic of tanzania", "TZA"),
  ("bolivia", "BOL"), ("plurinational state of bolivia", "BOL"),
  ("venezuela", "VEN"), ("bolivarian republic of venezuela", "VEN"),
  ("iran", "IRN"), ("islamic republic of iran", "IRN"),
  ("syria", "SYR"), ("syrian arab republic", "SYR"),
  ("laos", "LAO"), ("lao people's democratic republic", "LAO"),
  ("moldova", "MDA"), ("republic of moldova", "MDA"),
  ("macedonia", "MKD"), ("north macedonia", "MKD"),
  ("netherlands", "NLD"), ("holland", "NLD"),
  ("swaziland", "SWZ"), ("eswatini", "SWZ")]

/-- Whether a registry record matches a lower-cased query, as in
`pycountry.countries.lookup` (case-insensitive comparison against the
record's fields). -/
def fieldMatch (cl : String) (c : Country) : Bool :=
  pyLowerStr c.alpha_2 == cl || pyLowerStr c.alpha_3 == cl ||
    pyLowerStr c.name == cl ||
    (match c.common_name with
     | some cn => pyLowerStr cn == cl
     | none => false)

/-- Model of `pycountry.countries.lookup` (src/app.py line 67) applied to
the lower-cased query (the real lookup lower-cases both sides itself);
`none` models the caught `LookupError`. -/
def lookupLower (reg : List Country) (cl : String) : Option Country :=
  reg.find? (fieldMatch cl)

/-- The return type of `normalize_country`: the `(alpha_3, alpha_2, name)`
triple, each component possibly Python `None`. -/
abbrev Triple := Option String × Option String × Option String

/-- One conditional update of the fuzzy loop's running best
(`if score > best_score`, src/app.py lines 79-81 and 86-88). -/
def upd (st : Option Country × Nat) (p : Country × Nat) :
    Option Country × Nat :=
  if st.2 < p.2 then (some p.1, p.2) else st

/-- The fuzzy scores one registry record contributes, in evaluation order:
the official name's score, then the common name's score when the record has
one (src/app.py lines 77-88). -/
def candScores (cl : String) (c : Country) : List Nat :=
  fuzzRatio cl.data (pyLowerStr c.name).data ::
    (match c.common_name with
     | some cn => [fuzzRatio cl.data (pyLowerStr cn).data]
     | none => [])

/-- The fuzzy candidates of one record, paired with the record. -/
def candPairs (cl : String) (c : Country) : List (Country × Nat) :=
  (candScores cl c).map fun sc => (c, sc)

/-- The body of the fuzzy loop for one registry record: the one or two
conditional updates of src/app.py lines 76-88, written as a fold over that
record's candidates. -/
def fuzzStep (cl : String) (st : Option Country × Nat) (c : Country) :
    Option Country × Nat :=
  List.foldl upd st (candPairs cl c)

/-- All fuzzy candidates in iteration order (record order, official name
before common name). -/
def pairsOf (cl : String) : List Country → List (Country × Nat)
  | [] => []
  | c :: cs => candPairs cl c ++ pairsOf cl cs

/-- All fuzzy scores in iteration order. -/
def allScores (cl : String) (reg : List Country) : List Nat :=
  (pairsOf cl reg).map Prod.snd

/-- The best fuzzy score (0 when there are no candidates). -/
def bestScore (cl : String) (reg : List Country) : Nat :=
  List.foldl max 0 (allScores cl reg)

/-- The fuzzy loop of src/app.py lines 73-88: running
`(best_match, best_score)` from `(None, 0)`. -/
def fuzzyBest (cl : String) (reg : List Country) : Option Country × Nat :=
  List.foldl (fuzzStep cl) (none, 0) reg

/-- The fuzzy fallback stage (src/app.py lines 72-94):
`if best_match and best_score >= 80` return its codes, else unresolved. -/
def fuzzyFallback (cl : String) (reg : List Country) : Triple :=
  match fuzzyBest cl reg with
  | (some c, bs) =>
    if 80 ≤ bs then (some c.alpha_3, some c.alpha_2, some c.name)
    else (none, none, none)
  | (none, _) => (none, none, none)

/-- Stages 3 and 4 of `normalize_country` (src/app.py lines 65-94): exact
registry lookup, then the fuzzy fallback. -/
def resolveExactThenFuzzy (reg : List Country) (cl : String) : Triple :=
  match lookupLower reg cl with
  | some c => (some c.alpha_3, some c.alpha_2, some c.name)
  | none => fuzzyFallback cl reg

/-- Stages 2-4 of `normalize_country` (src/app.py lines 57-94) on the
lower-cased cleaned input `cl` (every comparison in these stages is
case-insensitive, so `cl` determines the result): override lookup with
`pycountry.countries.get(alpha_3=...)` (a failed get falls through, the
caught exception of lines 59-63), then exact lookup, then fuzzy. -/
def resolveLower (reg : List Country) (ov : List (String × String))
    (cl : String) : Triple :=
  match ov.find? (fun p => p.1 == cl) with
  | some p =>
    match reg.find? (fun c => c.alpha_3 == p.2) with
    | some c => (some c.alpha_3, some c.alpha_2, some c.name)
    | none => resolveExactThenFuzzy reg cl
  | none => resolveExactThenFuzzy reg cl

/-- `normalize_country` (src/app.py lines 15-94) over a registry and an
override table.  The input is `none` for a NaN cell; the guard of line 20
(`pd.isna(name) or str(name).strip() == ""`) returns the all-`None` triple
immediately. -/
def normalizeCountryWith (reg : List Country) (ov : List (String × String))
    (input : Option String) : Triple :=
  match input with
  | none => (none, none, none)
  | some s =>
    if pyStrip s.data = [] then (none, none, none)
    else resolveLower reg ov (cleanLower s)

/-- `normalize_country` with the program's registry and override table. -/
def normalizeCountry (input : Option String) : Triple :=
  normalizeCountryWith countries overrides input

/-- Code-point lexicographic strict order on strings, as Python compares
`str` values (pandas sorts group keys with it). -/
def strLtB : List Char → List Char → Bool
  | [], [] => false
  | [], _ :: _ => true
  | _ :: _, [] => false
  | c :: cs, d :: ds => if c < d then true else if d < c then false else strLtB cs ds

/-- Insert into an ascending list (insertion step of a stable sort). -/
def insertAsc (a : String) : List String → List String
  | [] => [a]
  | b :: bs => if strLtB b.data a.data then b :: insertAsc a bs else a :: b :: bs

/-- Ascending stable sort by code-point order. -/
def sortAsc (l : List String) : List String :=
  l.foldr insertAsc []

/-- Deduplication keeping first occurrences, as pandas `unique` and the
group-key extraction do. -/
def dedupAux (seen : List String) : List String → List String
  | [] => []
  | a :: as =>
    if seen.contains a then dedupAux seen as
    else a :: dedupAux (a :: seen) as

/-- Deduplication keeping first occurrences. -/
def dedupFirst (l : List String) : List String :=
  dedupAux [] l

/-- `aggregate_data` with `aggregation_method = "Total Sum"` (src/app.py
lines 117-125): `df.groupby('country', as_index=False).agg({variable:
'sum'})`.  pandas groups by the raw `country` strings, drops NaN keys, and
(with the default `sort=True`) emits one row per distinct key in ascending
key order, carrying the group's sum.  The subsequent merge with
`first_occurrence[['country']]` and the column rename add no content to the
`(country, sum)` pairs. -/
def aggregateTotalSum (rows : List (Option String × Int)) : List (String × Int) :=
  let keys := sortAsc (dedupFirst (rows.filterMap Prod.fst))
  keys.map fun k =>
    (k, (rows.filterMap fun r =>
         if r.1 == some k then some r.2 else none).foldl (· + ·) 0)

/-- One row of the aggregated-and-resolved frame of src/app.py lines
238-247: the raw country string, the aggregated value, and the three
columns produced by applying `normalize_country` to the country string. -/
structure ResolvedRow where
  country : String
  total : Int
  iso3 : Option String
  iso2_label : Option String
  country_name_official : Option String
deriving DecidableEq

/-- Resolution of the aggregated frame (src/app.py lines 242-245):
`normalize_country` applied to each aggregated row's country string. -/
def resolvePanelRows (agg : List (String × Int)) : List ResolvedRow :=
  agg.map fun r =>
    let t := normalizeCountry (some r.1)
    ⟨r.1, r.2, t.1, t.2.1, t.2.2⟩

/-- `df_clean` of the Total-Sum panel branch (src/app.py lines 238-247):
aggregate, resolve, then `dropna(subset=["iso3"])`. -/
def dfCleanOf (rows : List (Option String × Int)) : List ResolvedRow :=
  (resolvePanelRows (aggregateTotalSum rows)).filter fun r => r.iso3.isSome

/-- The unresolved-country report of src/app.py line 263:
`df_clean[df_clean["iso3"].isna()]["country"].unique().tolist()` — the
distinct original country strings of the rows of `df_clean` whose iso3 is
missing (note it reads `df_clean`, the frame produced after `dropna`). -/
def unresolvedOf (rows : List (Option String × Int)) : List String :=
  dedupFirst (((dfCleanOf rows).filter fun r => r.iso3.isNone).map
    fun r => r.country)

/-- The resolved groups the Total-Sum panel branch hands to the map: one
`(iso3, total)` pair per row of `df_clean`. -/
def resolvedGroupsOf (rows : List (Option String × Int)) : List (String × Int) :=
  (dfCleanOf rows).map fun r => (r.iso3.getD "", r.total)

/-- A cell of an uploaded table: missing (NaN), a string, or a number. -/
inductive Cell where
  | na : Cell
  | str (s : String) : Cell
  | num (n : Int) : Cell
deriving DecidableEq

/-- The country-column search of src/app.py lines 188-192: the index of the
first column whose lower-cased name is `country`. -/
def findCountryIdx : List String → Option Nat
  | [] => none
  | c :: cs =>
    if pyLowerStr c == "country" then some 0
    else (findCountryIdx cs).map (· + 1)

/-- The value `normalize_country` receives from a cell: NaN stays NaN,
other cells pass through Python `str`. -/
def cellCountry : Cell → Option String
  | .na => none
  | .str s => some s
  | .num n => some (toString n)

/-- Numeric reading of a selected variable cell (the claims only exercise
numeric cells). -/
def cellInt : Cell → Int
  | .num n => n
  | _ => 0

/-- The main flow on an uploaded table, Total-Sum panel branch (src/app.py
lines 187-263): if no column lower-cases to `country`, report the error and
halt (`st.error` + `st.stop()`, modelled by `Except.error` — nothing after
the check runs); otherwise aggregate, resolve, drop unresolved rows and
compute the unresolved-country report. -/
def appFlowPanelSum (cols : List String) (rows : List (List Cell))
    (varIdx : Nat) : Except String (List ResolvedRow × List String) :=
  match findCountryIdx cols with
  | none => .error "❌ Dataset must contain a 'country' column."
  | some i =>
    .ok
      (let rws := rows.map fun r =>
         (cellCountry (r.getD i .na), cellInt (r.getD varIdx .na))
       (dfCleanOf rws, unresolvedOf rws))

/-- All letter-case variants of a character list: each position chooses the
upper- or lower-case form of its character. -/
def caseVariantsL : List Char → List (List Char)
  | [] => [[]]
  | c :: cs =>
    ((caseVariantsL cs).map (fun v => pyUpper c :: v)) ++
      ((caseVariantsL cs).map (fun v => pyLower c :: v))

/-- All letter-case variants of a string. -/
def caseVariants (s : String) : List String :=
  (caseVariantsL s.data).map String.mk

/-- Every letter-case variant of the three Turkey spellings named by the
spec: "Turkey", "Türkiye" (with precomposed U+00FC, as a user would type
it) and "turkiye". -/
def turkeyVariants : List String :=
  caseVariants "Turkey" ++ caseVariants "Türkiye" ++ caseVariants "turkiye"

/-- The input table of the spec's example scenario: rows
`["USA", 10], ["U.S.", 20], ["Turkiye", 5]`. -/
def exampleRows : List (Option String × Int) :=
  [(some "USA", 10), (some "U.S.", 20), (some "Turkiye", 5)]

/-- A registry record used to exhibit a fuzzy-score tie. -/
def tieA : Country := ⟨"AA", "AAA", "Aaaa", none⟩

/-- A second record with the same name, so every score ties with `tieA`. -/
def tieB : Country := ⟨"BB", "BBB", "Aaaa", none⟩

/-- One update of the fuzzy loop leaves the running score at the maximum of
the old score and the candidate. -/
theorem upd_snd (st : Option Country × Nat) (p : Country × Nat) :
    (upd st p).2 = max st.2 p.2 := by
  unfold upd
  split <;> omega

/-- The running fuzzy score is the fold of `max` over the candidate
scores. -/
theorem foldl_upd_snd :
    ∀ (l : List (Country × Nat)) (st : Option Country × Nat),
      (List.foldl upd st l).2 = List.foldl max st.2 (l.map Prod.snd)
  | [], _ => rfl
  | p :: t, st => by
    simp only [List.foldl_cons, List.map_cons]
    rw [foldl_upd_snd t (upd st p), upd_snd]

/-- A fold of `max` stays below a strict bound of its arguments. -/
theorem foldl_max_lt :
    ∀ (l : List Nat) (a b : Nat), a < b → (∀ x ∈ l, x < b) →
      List.foldl max a l < b
  | [], _, _, ha, _ => ha
  | x :: t, a, b, ha, h => by
    simp only [List.foldl_cons]
    refine foldl_max_lt t _ b ?_ fun y hy => h y (List.mem_cons_of_mem _ hy)
    have := h x (List.mem_cons_self _ _)
    omega

/-- The per-record fuzzy loop is the candidate-by-candidate fold. -/
theorem foldl_fuzzStep_eq (cl : String) :
    ∀ (reg : List Country) (st : Option Country × Nat),
      List.foldl (fuzzStep cl) st reg = List.foldl upd st (pairsOf cl reg)
  | [], _ => rfl
  | c :: t, st => by
    rw [List.foldl_cons, pairsOf, List.foldl_append]
    exact foldl_fuzzStep_eq cl t (fuzzStep cl st c)

/-- The fuzzy loop, flattened to the candidate list. -/
theorem fuzzyBest_eq (cl : String) (reg : List Country) :
    fuzzyBest cl reg = List.foldl upd (none, 0) (pairsOf cl reg) :=
  foldl_fuzzStep_eq cl reg (none, 0)

/-- Once the running best match is set it never becomes unset. -/
theorem foldl_upd_some :
    ∀ (l : List (Country × Nat)) (c : Country) (b : Nat),
      (List.foldl upd ((some c : Option Country), b) l).1.isSome
  | [], _, _ => rfl
  | p :: t, c, b => by
    simp only [List.foldl_cons]
    unfold upd
    split
    · exact foldl_upd_some t p.1 p.2
    · exact foldl_upd_some t c b

/-- If the fuzzy loop ends with no best match, nothing ever updated it, so
the final state is the initial one. -/
theorem foldl_upd_none :
    ∀ l : List (Country × Nat),
      (List.foldl upd ((none : Option Country), 0) l).1 = none →
        List.foldl upd ((none : Option Country), 0) l = (none, 0)
  | [] => fun _ => rfl
  | p :: t => by
    intro h
    simp only [List.foldl_cons] at h ⊢
    by_cases hc : (((none : Option Country), 0) : Option Country × Nat).2 < p.2
    · exfalso
      have hupd : upd ((none : Option Country), 0) p = (some p.1, p.2) := by
        unfold upd
        rw [if_pos hc]
      rw [hupd] at h
      have := foldl_upd_some t p.1 p.2
      rw [h] at this
      exact Bool.noConfusion this
    · have hupd : upd ((none : Option Country), 0) p = (none, 0) := by
        unfold upd
        rw [if_neg hc]
      rw [hupd] at h ⊢
      exact foldl_upd_none t h

/-- The strict-`>` update makes the fuzzy fold return the first candidate
that ever attains the final best score: every candidate strictly before it
scores strictly below the final best. -/
theorem first_attainer :
    ∀ (l : List (Country × Nat)) (st : Option Country × Nat) (c : Country)
      (b : Nat), List.foldl upd st l = (some c, b) →
      (st = (some c, b) ∧ ∀ q ∈ l, q.2 ≤ b) ∨
      (∃ l1 l2, l = l1 ++ (c, b) :: l2 ∧ st.2 < b ∧ ∀ q ∈ l1, q.2 < b)
  | [], st, c, b => fun h => Or.inl ⟨h, by simp⟩
  | p :: t, st, c, b => fun h => by
    rw [List.foldl_cons] at h
    by_cases hc : st.2 < p.2
    · have hupd : upd st p = (some p.1, p.2) := by
        unfold upd
        rw [if_pos hc]
      rw [hupd] at h
      rcases first_attainer t (some p.1, p.2) c b h with ⟨h1, _⟩ |
        ⟨l1, l2, heq, hlt, hall⟩
      · have hp1 : p.1 = c := by
          have := congrArg Prod.fst h1
          simpa using this
        have hp2 : p.2 = b := by
          have := congrArg Prod.snd h1
          simpa using this
        refine Or.inr ⟨[], t, ?_, ?_, by simp⟩
        · have hp : p = (c, b) := Prod.ext hp1 hp2
          rw [← hp]
          rfl
        · omega
      · refine Or.inr ⟨p :: l1, l2, by rw [heq]; rfl, ?_, ?_⟩
        · simp only at hlt
          omega
        · intro q hq
          rcases List.mem_cons.mp hq with hq | hq
          · subst hq
            simp only at hlt
            omega
          · exact hall q hq
    · have hupd : upd st p = st := by
        unfold upd
        rw [if_neg hc]
      rw [hupd] at h
      rcases first_attainer t st c b h with ⟨h1, h2⟩ |
        ⟨l1, l2, heq, hlt, hall⟩
      · refine Or.inl ⟨h1, fun q hq => ?_⟩
        rcases List.mem_cons.mp hq with hq | hq
        · subst hq
          have : st.2 = b := by rw [h1]
          omega
        · exact h2 q hq
      · refine Or.inr ⟨p :: l1, l2, by rw [heq]; rfl, hlt, fun q hq => ?_⟩
        rcases List.mem_cons.mp hq with hq | hq
        · subst hq
          omega
        · exact hall q hq

/-- A candidate pair comes from a registry record and one of its scores. -/
theorem pairsOf_mem (cl : String) :
    ∀ (reg : List Country) (c : Country) (sc : Nat),
      (c, sc) ∈ pairsOf cl reg → c ∈ reg ∧ sc ∈ candScores cl c
  | [], c, sc => by
    intro h
    simp [pairsOf] at h
  | r :: t, c, sc => by
    intro h
    rw [pairsOf, List.mem_append] at h
    rcases h with h | h
    · rcases List.mem_map.mp h with ⟨x, hx, hxe⟩
      have hr : r = c := congrArg Prod.fst hxe
      have hs : x = sc := congrArg Prod.snd hxe
      subst hr
      subst hs
      exact ⟨List.mem_cons_self _ _, hx⟩
    · rcases pairsOf_mem cl t c sc h with ⟨h1, h2⟩
      exact ⟨List.mem_cons_of_mem _ h1, h2⟩

/-- The final best match is a registry record attaining the final best
score. -/
theorem fuzzyBest_mem (cl : String) (reg : List Country) (c : Country)
    (b : Nat) (h : fuzzyBest cl reg = (some c, b)) :
    c ∈ reg ∧ b ∈ candScores cl c := by
  rw [fuzzyBest_eq] at h
  rcases first_attainer _ _ _ _ h with ⟨h1, _⟩ | ⟨l1, l2, heq, _, _⟩
  · exact absurd (congrArg Prod.fst h1) (by simp)
  · refine pairsOf_mem cl reg c b ?_
    rw [heq]
    exact List.mem_append_right _ (List.mem_cons_self _ _)

/-- The final fuzzy score is the maximum candidate score. -/
theorem fuzzyBest_snd (cl : String) (reg : List Country) :
    (fuzzyBest cl reg).2 = bestScore cl reg := by
  rw [fuzzyBest_eq, foldl_upd_snd]
  rfl

/-- The exact-then-fuzzy tail of the resolver returns either the all-`None`
triple or the field triple of some registry record. -/
theorem resolveEF_shape (reg : List Country) (cl : String) :
    resolveExactThenFuzzy reg cl = (none, none, none) ∨
      ∃ c ∈ reg, resolveExactThenFuzzy reg cl =
        (some c.alpha_3, some c.alpha_2, some c.name) := by
  cases hlk : lookupLower reg cl with
  | some c =>
    have he : resolveExactThenFuzzy reg cl =
        (some c.alpha_3, some c.alpha_2, some c.name) := by
      simp only [resolveExactThenFuzzy, hlk]
    exact Or.inr ⟨c, List.mem_of_find?_eq_some hlk, he⟩
  | none =>
    have he : resolveExactThenFuzzy reg cl = fuzzyFallback cl reg := by
      simp only [resolveExactThenFuzzy, hlk]
    rcases hfb : fuzzyBest cl reg with ⟨_ | c, bs⟩
    · have hf : fuzzyFallback cl reg = (none, none, none) := by
        simp only [fuzzyFallback, hfb]
      exact Or.inl (he.trans hf)
    · by_cases hge : 80 ≤ bs
      · have hf : fuzzyFallback cl reg =
            (some c.alpha_3, some c.alpha_2, some c.name) := by
          simp only [fuzzyFallback, hfb]
          rw [if_pos hge]
        exact Or.inr ⟨c, (fuzzyBest_mem cl reg c bs hfb).1, he.trans hf⟩
      · have hf : fuzzyFallback cl reg = (none, none, none) := by
          simp only [fuzzyFallback, hfb]
          rw [if_neg hge]
        exact Or.inl (he.trans hf)

/-- The resolver returns either the all-`None` triple or the field triple of
some registry record — never a partially filled triple. -/
theorem resultShape (reg : List Country) (ov : List (String × String))
    (inp : Option String) :
    normalizeCountryWith reg ov inp = (none, none, none) ∨
      ∃ c ∈ reg, normalizeCountryWith reg ov inp =
        (some c.alpha_3, some c.alpha_2, some c.name) := by
  match inp with
  | none => exact Or.inl rfl
  | some s =>
    by_cases hg : pyStrip s.data = []
    · have hn : normalizeCountryWith reg ov (some s) = (none, none, none) := by
        simp only [normalizeCountryWith]
        rw [if_pos hg]
      exact Or.inl hn
    · have hn : normalizeCountryWith reg ov (some s) =
          resolveLower reg ov (cleanLower s) := by
        simp only [normalizeCountryWith]
        rw [if_neg hg]
      rw [hn]
      cases hov : ov.find? (fun p => p.1 == cleanLower s) with
      | some p =>
        cases hget : reg.find? (fun c => c.alpha_3 == p.2) with
        | some c =>
          have hr : resolveLower reg ov (cleanLower s) =
              (some c.alpha_3, some c.alpha_2, some c.name) := by
            simp only [resolveLower, hov, hget]
          exact Or.inr ⟨c, List.mem_of_find?_eq_some hget, hr⟩
        | none =>
          have hr : resolveLower reg ov (cleanLower s) =
              resolveExactThenFuzzy reg (cleanLower s) := by
            simp only [resolveLower, hov, hget]
          rw [hr]
          exact resolveEF_shape reg (cleanLower s)
      | none =>
        have hr : resolveLower reg ov (cleanLower s) =
            resolveExactThenFuzzy reg (cleanLower s) := by
          simp only [resolveLower, hov]
        rw [hr]
        exact resolveEF_shape reg (cleanLower s)

/-- A list of whitespace characters strips to the empty list. -/
theorem all_space_strip_nil (l : List Char) (h : ∀ c ∈ l, isPySpace c) :
    pyStrip l = [] := by
  have h1 : l.dropWhile isPySpace = [] := by
    rw [List.dropWhile_eq_nil_iff]
    exact h
  unfold pyStrip
  rw [h1]
  rfl

/-- A list that strips to the empty list is all whitespace. -/
theorem strip_nil_all_space (l : List Char) (h : pyStrip l = []) :
    ∀ c ∈ l, isPySpace c := by
  intro c hc
  by_contra hnc
  unfold pyStrip at h
  rw [List.reverse_eq_nil_iff, List.dropWhile_eq_nil_iff] at h
  have hmem : c ∈ l.dropWhile isPySpace := by
    have hsplit := List.takeWhile_append_dropWhile (p := isPySpace) (l := l)
    rw [← hsplit] at hc
    rcases List.mem_append.mp hc with hc | hc
    · exact absurd (List.mem_takeWhile_imp hc) hnc
    · exact hc
  exact hnc (h c (List.mem_reverse.mpr hmem))

/-- NFKD maps a whitespace character to whitespace characters. -/
theorem nfkdChar_space (c : Char) (h0 : isPySpace c) :
    ∀ d ∈ nfkdChar c, isPySpace d := by
  have h : c.toNat = 32 ∨ c.toNat = 9 ∨ c.toNat = 10 ∨ c.toNat = 11 ∨
      c.toNat = 12 ∨ c.toNat = 13 ∨ c.toNat = 160 := by
    have h1 := h0
    unfold isPySpace at h1
    simp only [Bool.or_eq_true, decide_eq_true_eq] at h1
    tauto
  intro d hd
  by_cases h160 : c.toNat = 160
  · have he : nfkdChar c = [Char.ofNat 32] := by
      unfold nfkdChar
      rw [if_neg (by omega), if_neg (by omega), if_neg (by omega),
        if_neg (by omega), if_neg (by omega), if_neg (by omega), if_pos h160]
    rw [he, List.mem_singleton] at hd
    subst hd
    decide
  · have he : nfkdChar c = [c] := by
      unfold nfkdChar
      rw [if_neg (by omega), if_neg (by omega), if_neg (by omega),
        if_neg (by omega), if_neg (by omega), if_neg (by omega),
        if_neg (by omega)]
    rw [he, List.mem_singleton] at hd
    subst hd
    exact h0

/-- NFKD maps an all-whitespace list to an all-whitespace list. -/
theorem nfkdStr_space :
    ∀ l : List Char, (∀ c ∈ l, isPySpace c) → ∀ d ∈ nfkdStr l, isPySpace d
  | [], _ => by
    intro d hd
    simp [nfkdStr] at hd
  | c :: t, h => by
    intro d hd
    rw [nfkdStr] at hd
    rcases List.mem_append.mp hd with hd | hd
    · exact nfkdChar_space c (h c (List.mem_cons_self _ _)) d hd
    · exact nfkdStr_space t (fun x hx => h x (List.mem_cons_of_mem _ hx)) d hd

/-- An input whose raw form strips to nothing cleans to the empty string. -/
theorem cleanStr_of_strip_nil (s : String) (h : pyStrip s.data = []) :
    cleanStr s = "" := by
  have hall := strip_nil_all_space s.data h
  have h2 : pyStrip (nfkdStr s.data) = [] :=
    all_space_strip_nil _ (nfkdStr_space s.data hall)
  unfold cleanStr
  rw [h2]
  rfl

/-- An input whose raw form strips to nothing has empty `clean_lower`. -/
theorem cleanLower_of_strip_nil (s : String) (h : pyStrip s.data = []) :
    cleanLower s = "" := by
  unfold cleanLower
  rw [cleanStr_of_strip_nil s h]
  rfl

/-- C6: every input that is null (NaN), the empty string, or a
whitespace-only string resolves to the unresolved triple immediately: the
blank guard of src/app.py line 20 fires, so the result is the all-`None`
triple for every registry and every override table — the override table, the
exact registry lookup and the fuzzy matcher are never consulted, and (the
function being total) no error is raised. -/
theorem c6_blank_unresolved (reg : List Country) (ov : List (String × String))
    (inp : Option String)
    (h : inp = none ∨ ∃ s, inp = some s ∧ ∀ c ∈ s.data, isPySpace c) :
    normalizeCountryWith reg ov inp = (none, none, none) := by
  rcases h with h | ⟨s, hs, hall⟩
  · rw [h]
    rfl
  · rw [hs]
    have hg : pyStrip s.data = [] := all_space_strip_nil s.data hall
    simp only [normalizeCountryWith]
    rw [if_pos hg]

/-- Witness for C6 at the concrete whitespace-only input `"  "` with the
program's registry and override table. -/
theorem c6_blank_unresolved_witness :
    normalizeCountry (some "  ") = (none, none, none) :=
  c6_blank_unresolved countries overrides (some "  ")
    (Or.inr ⟨"  ", rfl, by decide⟩)

/-- C3: whenever the normalized lower-cased input is a key of the override
table, the resolver returns the override's mapped code: the override branch
of src/app.py lines 57-63 runs before the generic `pycountry` lookup of line
67, so an override key is never resolved by the generic lookup (to a
different country or otherwise). -/
theorem c3_override_precedence (s : String) (code : String)
    (h : (overrides.find? fun p => p.1 == cleanLower s).map Prod.snd =
      some code) :
    (normalizeCountry (some s)).1 = some code := by
  cases hov : overrides.find? fun p => p.1 == cleanLower s with
  | none =>
    rw [hov] at h
    exact absurd h (by simp)
  | some p =>
    rw [hov] at h
    have hcode : p.2 = code := by simpa using h
    have hkey : p.1 = cleanLower s := by
      have hb := List.find?_some hov
      exact eq_of_beq hb
    have hmem := List.mem_of_find?_eq_some hov
    have hne : p.1 ≠ "" := by
      have hk : ∀ q ∈ overrides, q.1 ≠ "" := by decide
      exact hk p hmem
    have hg : pyStrip s.data ≠ [] := by
      intro hg0
      exact hne (hkey.trans (cleanLower_of_strip_nil s hg0))
    have hn : normalizeCountry (some s) =
        resolveLower countries overrides (cleanLower s) := by
      simp only [normalizeCountry, normalizeCountryWith]
      rw [if_neg hg]
    rw [hn]
    have hsome : (countries.find? fun c => c.alpha_3 == p.2).isSome := by
      have hg2 : ∀ q ∈ overrides,
          (countries.find? fun c => c.alpha_3 == q.2).isSome := by decide
      exact hg2 p hmem
    cases hget : countries.find? fun c => c.alpha_3 == p.2 with
    | none =>
      rw [hget] at hsome
      exact absurd hsome (by simp)
    | some c =>
      have hr : resolveLower countries overrides (cleanLower s) =
          (some c.alpha_3, some c.alpha_2, some c.name) := by
        simp only [resolveLower, hov, hget]
      rw [hr]
      have hc3 : c.alpha_3 = p.2 := by
        have hb := List.find?_some hget
        exact eq_of_beq hb
      show some c.alpha_3 = some code
      rw [hc3, hcode]

/-- Witness for C3 at the override key `ussr` (input `"USSR"`). -/
theorem c3_override_precedence_witness :
    (normalizeCountry (some "USSR")).1 = some "RUS" :=
  c3_override_precedence "USSR" "RUS" (by decide)

/-- C10: every result of `normalize_country` is either entirely `None` or
entirely populated — a partially filled triple is never returned, so the
alpha-3 component alone decides resolvedness. -/
theorem c10_all_or_nothing (inp : Option String) :
    normalizeCountry inp = (none, none, none) ∨
      ∃ a b n, normalizeCountry inp = (some a, some b, some n) := by
  rcases resultShape countries overrides inp with h | ⟨c, _, h⟩
  · exact Or.inl h
  · exact Or.inr ⟨c.alpha_3, c.alpha_2, c.name, h⟩

/-- When no column lower-cases to `country`, the column search fails. -/
theorem findCountryIdx_eq_none :
    ∀ cols : List String, (∀ col ∈ cols, pyLowerStr col ≠ "country") →
      findCountryIdx cols = none
  | [], _ => rfl
  | c :: cs, h => by
    unfold findCountryIdx
    rw [if_neg (by simpa using h c (List.mem_cons_self _ _))]
    rw [findCountryIdx_eq_none cs fun col hc => h col (List.mem_cons_of_mem _ hc)]
    rfl

/-- C8: a table with no column whose lower-cased name is `country` makes the
main flow report the missing column and halt (src/app.py lines 187-196,
`st.error` + `st.stop()` modelled by the `Except.error` short-circuit): no
aggregation, resolution or rendering step of the pipeline runs. -/
theorem c8_missing_country_column (cols : List String)
    (rows : List (List Cell)) (varIdx : Nat)
    (h : ∀ col ∈ cols, pyLowerStr col ≠ "country") :
    appFlowPanelSum cols rows varIdx =
      .error "❌ Dataset must contain a 'country' column." := by
  have hf := findCountryIdx_eq_none cols h
  simp only [appFlowPanelSum, hf]

/-- Witness for C8 at a concrete table whose columns are `nation` and
`gdp`. -/
theorem c8_missing_country_column_witness :
    appFlowPanelSum ["nation", "gdp"] [] 0 =
      .error "❌ Dataset must contain a 'country' column." :=
  c8_missing_country_column ["nation", "gdp"] [] 0 (by decide)

/-- C7 round-trip: whenever the resolver maps an input to an alpha-3 code,
the canonical name it returns alongside (the registry record's name, i.e.
the reverse lookup of the code) itself resolves back to the same alpha-3
code.  The returned triple always consists of one registry record's fields
(`resultShape`), and every registry record's name re-resolves to its own
code. -/
theorem c7_roundtrip (s a3 a2 nm : String)
    (h : normalizeCountry (some s) = (some a3, some a2, some nm)) :
    (normalizeCountry (some nm)).1 = some a3 := by
  rcases resultShape countries overrides (some s) with h0 | ⟨c, hc, he⟩
  · have h0' : normalizeCountry (some s) = (none, none, none) := h0
    rw [h] at h0'
    exact absurd h0' (by simp)
  · have he' : normalizeCountry (some s) =
        (some c.alpha_3, some c.alpha_2, some c.name) := he
    rw [h] at he'
    simp only [Prod.mk.injEq, Option.some.injEq] at he'
    obtain ⟨h1, _, h3⟩ := he'
    subst h1
    subst h3
    have hall : ∀ d ∈ countries, (normalizeCountry (some d.name)).1 =
        some d.alpha_3 := by decide
    exact hall c hc

/-- Witness for C7: `"Turkey"` resolves to `(TUR, TR, Türkiye)`, and the
returned canonical name `Türkiye` re-resolves to `TUR`. -/
theorem c7_roundtrip_witness :
    (normalizeCountry (some "Türkiye")).1 = some "TUR" :=
  c7_roundtrip "Turkey" "TUR" "TR" "Türkiye" (by decide)

/-- C5: in the fuzzy-fallback stage, if every score against every canonical
and common country name is below 80 the stage returns the unresolved
triple, and if the best score is at least 80 the stage returns the codes of
a registry record attaining that best score (src/app.py lines 72-94). -/
theorem c5_fuzzy_threshold (cl : String) (reg : List Country) :
    ((∀ x ∈ allScores cl reg, x < 80) →
      fuzzyFallback cl reg = (none, none, none)) ∧
    (80 ≤ bestScore cl reg →
      ∃ c, c ∈ reg ∧ bestScore cl reg ∈ candScores cl c ∧
        fuzzyFallback cl reg = (some c.alpha_3, some c.alpha_2, some c.name)) := by
  constructor
  · intro hall
    have hlt : bestScore cl reg < 80 := by
      unfold bestScore
      exact foldl_max_lt _ 0 80 (by omega) hall
    rcases hfb : fuzzyBest cl reg with ⟨_ | c, bs⟩
    · simp only [fuzzyFallback, hfb]
    · have hbs : bs = bestScore cl reg := by
        have hsnd := fuzzyBest_snd cl reg
        rw [hfb] at hsnd
        simpa using hsnd
      simp only [fuzzyFallback, hfb]
      rw [if_neg (by omega)]
  · intro hge
    rcases hfb : fuzzyBest cl reg with ⟨bm, bs⟩
    have hbs : bs = bestScore cl reg := by
      have hsnd := fuzzyBest_snd cl reg
      rw [hfb] at hsnd
      simpa using hsnd
    cases bm with
    | none =>
      exfalso
      have h1 : (List.foldl upd (none, 0) (pairsOf cl reg)).1 = none := by
        rw [← fuzzyBest_eq, hfb]
      have h0 := foldl_upd_none (pairsOf cl reg) h1
      rw [← fuzzyBest_eq, hfb] at h0
      have hbs0 : bs = 0 := by
        have := congrArg Prod.snd h0
        simpa using this
      omega
    | some c =>
      have hmem := fuzzyBest_mem cl reg c bs hfb
      refine ⟨c, hmem.1, hbs ▸ hmem.2, ?_⟩
      simp only [fuzzyFallback, hfb]
      rw [if_pos (by omega)]

/-- Witness for C5: `"zzzz"` scores below 80 everywhere and is rejected;
`"china"` attains the best score 100 and resolves to China's codes. -/
theorem c5_fuzzy_threshold_witness :
    fuzzyFallback "zzzz" countries = (none, none, none) ∧
    ∃ c, c ∈ countries ∧ bestScore "china" countries ∈ candScores "china" c ∧
      fuzzyFallback "china" countries =
        (some c.alpha_3, some c.alpha_2, some c.name) :=
  ⟨(c5_fuzzy_threshold "zzzz" countries).1 (by decide),
   (c5_fuzzy_threshold "china" countries).2 (by decide)⟩

/-- C9: when the fuzzy loop ends with a best match, that match is the first
candidate in registry iteration order attaining the final best score —
every candidate strictly earlier scores strictly lower, so a later
equal-scoring country never displaces an earlier one (the strict `>` of
src/app.py lines 79 and 86); and when the best score passes the threshold,
that first attainer is the record whose codes are returned. -/
theorem c9_fuzzy_tie_first_wins (cl : String) (reg : List Country)
    (c : Country) (b : Nat) (h : fuzzyBest cl reg = (some c, b)) :
    (∃ l1 l2, pairsOf cl reg = l1 ++ (c, b) :: l2 ∧ ∀ q ∈ l1, q.2 < b) ∧
    (80 ≤ b → fuzzyFallback cl reg =
      (some c.alpha_3, some c.alpha_2, some c.name)) := by
  constructor
  · have h' := h
    rw [fuzzyBest_eq] at h'
    rcases first_attainer _ _ _ _ h' with ⟨h1, _⟩ | ⟨l1, l2, heq, _, hall⟩
    · exact absurd (congrArg Prod.fst h1) (by simp)
    · exact ⟨l1, l2, heq, hall⟩
  · intro hge
    simp only [fuzzyFallback, h]
    rw [if_pos hge]

/-- Witness for C9: with two registry records both named `Aaaa`, the query
`aaaa` ties at score 100 on both, and the first record wins. -/
theorem c9_fuzzy_tie_first_wins_witness :
    (∃ l1 l2, pairsOf "aaaa" [tieA, tieB] = l1 ++ (tieA, 100) :: l2 ∧
      ∀ q ∈ l1, q.2 < 100) ∧
    (80 ≤ 100 → fuzzyFallback "aaaa" [tieA, tieB] =
      (some tieA.alpha_3, some tieA.alpha_2, some tieA.name)) :=
  c9_fuzzy_tie_first_wins "aaaa" [tieA, tieB] tieA 100 (by decide)

/-- C4: every letter-case variant of "Turkey", "Türkiye" and "turkiye"
resolves to the alpha-3 code TUR.  ("Turkey" and "turkiye" variants hit the
override table; "Türkiye" variants are NFKD-decomposed by the cleaning
stage, so they miss the NFC override key and the exact lookup and are
accepted by the fuzzy stage at score exactly 80.) -/
theorem c4_turkey_variants_resolve_tur (s : String) (h : s ∈ turkeyVariants) :
    (normalizeCountry (some s)).1 = some "TUR" := by
  have key : ∀ t ∈ turkeyVariants, pyStrip t.data ≠ [] ∧
      (cleanLower t = "turkey" ∨ cleanLower t = "türkiye" ∨
        cleanLower t = "turkiye") := by decide
  obtain ⟨h1, h2⟩ := key s h
  have hn : normalizeCountry (some s) =
      resolveLower countries overrides (cleanLower s) := by
    simp only [normalizeCountry, normalizeCountryWith]
    rw [if_neg h1]
  rw [hn]
  rcases h2 with h2 | h2 | h2 <;> rw [h2] <;> decide

/-- Witness for C4 at the concrete variant `"TURKEY"`. -/
theorem c4_turkey_variants_witness :
    (normalizeCountry (some "TURKEY")).1 = some "TUR" :=
  c4_turkey_variants_resolve_tur "TURKEY" (by decide)

/-- C1 counterexample: on the spec's example table, the Total-Sum panel
pipeline produces the resolved groups `TUR: 5` and `USA: 10` — not `USA: 30`
and `TUR: 5`.  Aggregation groups the raw country strings before any
resolution, so the aliases `USA` and `U.S.` are never merged, and `U.S.`
(which no stage of the resolver can resolve) is dropped. -/
theorem c1_no_alias_merge_counterexample :
    resolvedGroupsOf exampleRows = [("TUR", 5), ("USA", 10)] ∧
      ("USA", (30 : Int)) ∉ resolvedGroupsOf exampleRows := by decide

/-- C1 amended: on the spec's example table, the sum-per-country aggregation
followed by resolution yields exactly the two resolved groups `TUR: 5` and
`USA: 10`; the `U.S.` row fails to resolve (aggregation precedes resolution,
and `U.S.` is neither an override key, an exact registry match, nor within
the fuzzy threshold) and is dropped. -/
theorem c1_panel_sum_amended :
    resolvedGroupsOf exampleRows = [("TUR", 5), ("USA", 10)] ∧
      (normalizeCountry (some "U.S.")).1 = none := by decide

/-- C2, at the failing input (a one-row table with country `Atlantis`): the
string `Atlantis` does not resolve, its row is therefore removed by
`dropna(subset=["iso3"])` — yet the unresolved-country report is empty,
because src/app.py line 263 computes it from `df_clean`, the frame produced
*after* the dropna, from which every unresolved row is already gone.  The
claim (every unresolved original string appears in the surfaced list)
demands `["Atlantis"]` here. -/
theorem c2_unresolved_report_bug :
    (normalizeCountry (some "Atlantis")).1 = none ∧
      dfCleanOf [(some "Atlantis", 1)] = [] ∧
      unresolvedOf [(some "Atlantis", 1)] = [] := by decide
